import Mathlib

/-!
Verification of the `rkyvdb` typed access layer (src/lib.rs).

The layer sits on top of an embedded byte-keyed store (RocksDB) with named
partitions (column families).  We embed the store as an association list from
(partition name, key bytes) to value bytes together with the list of
registered partitions.  The external serialization codec (rkyv) is modelled
abstractly as a pair of functions with the round-trip law the layer relies
on.  `Collection.get` and `Collection.modify` are translated line by line
from `src/lib.rs` (lines 91-141); `modify` additionally records a trace of
lock / engine events so that the locking discipline and the frame of the
operation are visible in the model, and its outcome distinguishes the panic
branch (`expect` on deserialization failure) from ordinary errors.
-/

set_option autoImplicit false

namespace Rkyvdb

/-- Byte sequences, as stored in the engine. -/
abbrev Bytes := List UInt8

/-- The error taxonomy of the layer (src/lib.rs lines 3-9):
`CollectionNotRegistered` and a wrapped engine (RocksDB) error. -/
inductive DBError where
  | collectionNotRegistered
  | rocksDB
  deriving DecidableEq, Repr

/-- Events emitted by `modify`: mutex acquire/release, the engine point read,
the user-supplied modifier call, and the commit operation (put or delete). -/
inductive Ev where
  | acquire
  | release
  | engineGet
  | userFn
  | enginePut
  | engineDelete
  deriving DecidableEq, Repr

/-- The serialization codec (rkyv), an external collaborator modelled at its
interface: serialize to bytes, deserialize from bytes, and the round-trip
law that bytes produced by `ser` deserialize back to the original value. -/
structure Codec (T : Type) where
  ser : T → Bytes
  deser : Bytes → Option T
  deser_ser : ∀ t, deser (ser t) = some t

/-- The embedded engine state: the set of registered partitions (column
families) and the stored entries, keyed by (partition name, key bytes). -/
structure Store where
  cfs : List String
  data : List ((String × Bytes) × Bytes)
  deriving DecidableEq, Repr

/-- Point lookup in the entry list. -/
def lookupKV (d : List ((String × Bytes) × Bytes)) (q : String × Bytes) :
    Option Bytes :=
  match d with
  | [] => none
  | (k, v) :: rest => if k = q then some v else lookupKV rest q

/-- Remove an entry (engine `delete_cf`). -/
def eraseKV (d : List ((String × Bytes) × Bytes)) (q : String × Bytes) :
    List ((String × Bytes) × Bytes) :=
  match d with
  | [] => []
  | (k, v) :: rest => if k = q then eraseKV rest q else (k, v) :: eraseKV rest q

/-- Insert-or-overwrite an entry (engine `put_cf`). -/
def putKV (d : List ((String × Bytes) × Bytes)) (q : String × Bytes)
    (v : Bytes) : List ((String × Bytes) × Bytes) :=
  (q, v) :: eraseKV d q

@[simp] theorem lookupKV_putKV_self (d : List ((String × Bytes) × Bytes))
    (q : String × Bytes) (v : Bytes) : lookupKV (putKV d q v) q = some v := by
  simp [putKV, lookupKV]

theorem lookupKV_eraseKV_self (d : List ((String × Bytes) × Bytes))
    (q : String × Bytes) : lookupKV (eraseKV d q) q = none := by
  induction d with
  | nil => rfl
  | cons kv rest ih =>
    obtain ⟨k, v⟩ := kv
    by_cases h : k = q <;> simp [eraseKV, lookupKV, h, ih]

theorem lookupKV_eraseKV_ne (d : List ((String × Bytes) × Bytes))
    (q q' : String × Bytes) (h : q' ≠ q) :
    lookupKV (eraseKV d q) q' = lookupKV d q' := by
  induction d with
  | nil => rfl
  | cons kv rest ih =>
    obtain ⟨k, v⟩ := kv
    by_cases hk : k = q
    · subst hk
      simp [eraseKV, lookupKV, Ne.symm h, ih]
    · by_cases hk' : k = q'
      · subst hk'
        simp [eraseKV, lookupKV, hk, ih]
      · simp [eraseKV, lookupKV, hk, hk', ih]

theorem lookupKV_putKV_ne (d : List ((String × Bytes) × Bytes))
    (q q' : String × Bytes) (v : Bytes) (h : q' ≠ q) :
    lookupKV (putKV d q v) q' = lookupKV d q' := by
  simp [putKV, lookupKV, Ne.symm h, lookupKV_eraseKV_ne d q q' h]

/-- Fault injection for the engine: whether the point read, the put, or the
delete surfaces a RocksDB error on this call. -/
structure Faults where
  failGet : Bool
  failPut : Bool
  failDelete : Bool
  deriving DecidableEq, Repr

/-- The fault-free engine behaviour. -/
def noFaults : Faults := ⟨false, false, false⟩

/-- Model of `Collection::get` (src/lib.rs lines 91-107): resolve the partition
(`CollectionNotRegistered` if absent), then a pinned point read; the returned
view is its raw bytes. -/
def Collection.get (cf : String) (fl : Faults) (kb : Bytes) (st : Store) :
    Except DBError (Option Bytes) :=
  if cf ∈ st.cfs then
    if fl.failGet then .error .rocksDB
    else .ok (lookupKV st.data (cf, kb))
  else .error .collectionNotRegistered

/-- Model of `Value::deser` (src/lib.rs lines 68-78): full deserialization of the
view's bytes; `none` models the `expect` panic on deserialization failure. -/
def Value.deser {T : Type} (codec : Codec T) (bytes : Bytes) : Option T :=
  codec.deser bytes

/-- The result of a `modify` call: the event trace, the outcome
(`none` = the `expect` panic fired; `some none` = `Ok(())`;
`some (some e)` = `Err(e)`), and the engine state after the call. -/
structure MRes where
  trace : List Ev
  outcome : Option (Option DBError)
  store : Store
  deriving DecidableEq, Repr

/-- The commit half of `modify` (src/lib.rs lines 129-139): if the slot holds
a record, serialize and put; if it is empty, delete the key. -/
def Collection.commit {T : Type} (cf : String) (codec : Codec T) (fl : Faults)
    (kb : Bytes) (slot : Option T) (st : Store) : MRes :=
  match slot with
  | some t =>
    if fl.failPut then ⟨[.enginePut], some (some .rocksDB), st⟩
    else ⟨[.enginePut], some none,
          { st with data := putKV st.data (cf, kb) (codec.ser t) }⟩
  | none =>
    if fl.failDelete then ⟨[.engineDelete], some (some .rocksDB), st⟩
    else ⟨[.engineDelete], some none,
          { st with data := eraseKV st.data (cf, kb) }⟩

/-- Model of `Collection::modify` (src/lib.rs lines 109-141): resolve the partition,
acquire the mutex, point read, deserialize (panicking on failure), run the
user modifier on the optional slot, commit, release the mutex.  The mutex
guard is dropped on every exit path after acquisition, including the engine
error returns and the panic unwind, so `.release` closes every such trace. -/
def Collection.modify {T : Type} (cf : String) (codec : Codec T) (fl : Faults)
    (kb : Bytes) (modifier : Option T → Option T) (st : Store) : MRes :=
  if cf ∈ st.cfs then
    if fl.failGet then ⟨[.acquire, .engineGet, .release], some (some .rocksDB), st⟩
    else
      match lookupKV st.data (cf, kb) with
      | some b =>
        match codec.deser b with
        | none => ⟨[.acquire, .engineGet, .release], none, st⟩
        | some t =>
          let c := Collection.commit cf codec fl kb (modifier (some t)) st
          ⟨[.acquire, .engineGet, .userFn] ++ c.trace ++ [.release], c.outcome, c.store⟩
      | none =>
        let c := Collection.commit cf codec fl kb (modifier none) st
        ⟨[.acquire, .engineGet, .userFn] ++ c.trace ++ [.release], c.outcome, c.store⟩
  else ⟨[], some (some .collectionNotRegistered), st⟩

/-- UTF-8 encoding of one character, modelling the byte content of a Rust
`String`/`str` (whose `as_bytes` exposes its UTF-8 bytes). -/
def utf8Char (c : Char) : List UInt8 :=
  let n := c.toNat
  if n < 0x80 then [UInt8.ofNat n]
  else if n < 0x800 then
    [UInt8.ofNat (0xC0 ||| (n >>> 6)), UInt8.ofNat (0x80 ||| (n &&& 0x3F))]
  else if n < 0x10000 then
    [UInt8.ofNat (0xE0 ||| (n >>> 12)), UInt8.ofNat (0x80 ||| ((n >>> 6) &&& 0x3F)),
     UInt8.ofNat (0x80 ||| (n &&& 0x3F))]
  else
    [UInt8.ofNat (0xF0 ||| (n >>> 18)), UInt8.ofNat (0x80 ||| ((n >>> 12) &&& 0x3F)),
     UInt8.ofNat (0x80 ||| ((n >>> 6) &&& 0x3F)), UInt8.ofNat (0x80 ||| (n &&& 0x3F))]

/-- Model of `str::as_bytes` on a string given as its character sequence
(`impl Key for str`, src/lib.rs lines 36-40). -/
def strBytes (s : List Char) : Bytes := (s.map utf8Char).flatten

/-- Model of `impl Key for ()` (src/lib.rs lines 30-34): the empty key. -/
def unitKeySerialize : Bytes := []

/-- Model of `CaseInsensitiveString` (src/lib.rs line 42): a string key wrapper whose
constructor lower-cases the text. -/
structure CaseInsensitiveString where
  inner : List Char
  deriving DecidableEq, Repr

/-- Model of `From<&str> for CaseInsensitiveString` (src/lib.rs lines 44-48):
lower-case the incoming string.  Rust's `str::to_lowercase` is modelled by
the per-character case mapping. -/
def CaseInsensitiveString.ofStr (s : List Char) : CaseInsensitiveString :=
  ⟨s.map Char.toLower⟩

/-- Model of `Key::serialize` for `CaseInsensitiveString` (src/lib.rs lines 50-54):
the UTF-8 bytes of the stored (already lower-cased) string. -/
def CaseInsensitiveString.serialize (k : CaseInsensitiveString) : Bytes :=
  strBytes k.inner

/-- A concrete codec instance (unary encoding of naturals), used to evaluate
the model on concrete inputs. -/
def natCodec : Codec Nat where
  ser n := List.replicate n 1
  deser b := if b.all (fun x => x = 1) then some b.length else none
  deser_ser := by
    intro n
    simp [List.all_eq_true]

/-- The bytes stored under `(cf, kb)`, if any, were produced by this layer's
own serialization (they are in the image of `codec.ser`). -/
def KeyWf {T : Type} (codec : Codec T) (cf : String) (kb : Bytes)
    (st : Store) : Prop :=
  ∀ b, lookupKV st.data (cf, kb) = some b → ∃ t, b = codec.ser t

/-- Every byte value stored in the partition `cf` was produced by this
layer's own serialization. -/
def StoreWf {T : Type} (codec : Codec T) (cf : String) (st : Store) : Prop :=
  ∀ kb, KeyWf codec cf kb st

theorem modify_eq_unregistered {T : Type} (codec : Codec T) (cf : String)
    (fl : Faults) (kb : Bytes) (modifier : Option T → Option T) (st : Store)
    (hreg : cf ∉ st.cfs) :
    Collection.modify cf codec fl kb modifier st
      = ⟨[], some (some .collectionNotRegistered), st⟩ := by
  simp [Collection.modify, hreg]

theorem modify_eq_failGet {T : Type} (codec : Codec T) (cf : String)
    (fl : Faults) (kb : Bytes) (modifier : Option T → Option T) (st : Store)
    (hreg : cf ∈ st.cfs) (hfl : fl.failGet = true) :
    Collection.modify cf codec fl kb modifier st
      = ⟨[.acquire, .engineGet, .release], some (some .rocksDB), st⟩ := by
  simp [Collection.modify, hreg, hfl]

theorem modify_eq_absent {T : Type} (codec : Codec T) (cf : String)
    (fl : Faults) (kb : Bytes) (modifier : Option T → Option T) (st : Store)
    (hreg : cf ∈ st.cfs) (hfl : fl.failGet = false)
    (h : lookupKV st.data (cf, kb) = none) :
    Collection.modify cf codec fl kb modifier st
      = ⟨[.acquire, .engineGet, .userFn]
           ++ (Collection.commit cf codec fl kb (modifier none) st).trace
           ++ [.release],
         (Collection.commit cf codec fl kb (modifier none) st).outcome,
         (Collection.commit cf codec fl kb (modifier none) st).store⟩ := by
  simp [Collection.modify, hreg, hfl, h]

theorem modify_eq_corrupt {T : Type} (codec : Codec T) (cf : String)
    (fl : Faults) (kb : Bytes) (modifier : Option T → Option T) (st : Store)
    (b : Bytes) (hreg : cf ∈ st.cfs) (hfl : fl.failGet = false)
    (h : lookupKV st.data (cf, kb) = some b) (hd : codec.deser b = none) :
    Collection.modify cf codec fl kb modifier st
      = ⟨[.acquire, .engineGet, .release], none, st⟩ := by
  simp [Collection.modify, hreg, hfl, h, hd]

theorem modify_eq_found {T : Type} (codec : Codec T) (cf : String)
    (fl : Faults) (kb : Bytes) (modifier : Option T → Option T) (st : Store)
    (b : Bytes) (t : T) (hreg : cf ∈ st.cfs) (hfl : fl.failGet = false)
    (h : lookupKV st.data (cf, kb) = some b) (hd : codec.deser b = some t) :
    Collection.modify cf codec fl kb modifier st
      = ⟨[.acquire, .engineGet, .userFn]
           ++ (Collection.commit cf codec fl kb (modifier (some t)) st).trace
           ++ [.release],
         (Collection.commit cf codec fl kb (modifier (some t)) st).outcome,
         (Collection.commit cf codec fl kb (modifier (some t)) st).store⟩ := by
  simp [Collection.modify, hreg, hfl, h, hd]

theorem commit_eq_put {T : Type} (codec : Codec T) (cf : String) (fl : Faults)
    (kb : Bytes) (t : T) (st : Store) (hfl : fl.failPut = false) :
    Collection.commit cf codec fl kb (some t) st
      = ⟨[.enginePut], some none,
         { st with data := putKV st.data (cf, kb) (codec.ser t) }⟩ := by
  simp [Collection.commit, hfl]

theorem commit_eq_failPut {T : Type} (codec : Codec T) (cf : String)
    (fl : Faults) (kb : Bytes) (t : T) (st : Store) (hfl : fl.failPut = true) :
    Collection.commit cf codec fl kb (some t) st
      = ⟨[.enginePut], some (some .rocksDB), st⟩ := by
  simp [Collection.commit, hfl]

theorem commit_eq_delete {T : Type} (codec : Codec T) (cf : String)
    (fl : Faults) (kb : Bytes) (st : Store) (hfl : fl.failDelete = false) :
    Collection.commit cf codec fl kb none st
      = ⟨[.engineDelete], some none,
         { st with data := eraseKV st.data (cf, kb) }⟩ := by
  simp [Collection.commit, hfl]

theorem commit_eq_failDelete {T : Type} (codec : Codec T) (cf : String)
    (fl : Faults) (kb : Bytes) (st : Store) (hfl : fl.failDelete = true) :
    Collection.commit cf codec fl kb none st
      = ⟨[.engineDelete], some (some .rocksDB), st⟩ := by
  simp [Collection.commit, hfl]

theorem commit_cfs_eq {T : Type} (codec : Codec T) (cf : String) (fl : Faults)
    (kb : Bytes) (slot : Option T) (st : Store) :
    (Collection.commit cf codec fl kb slot st).store.cfs = st.cfs := by
  rcases slot with _ | t
  · by_cases hfl : fl.failDelete
    · rw [commit_eq_failDelete codec cf fl kb st hfl]
    · rw [commit_eq_delete codec cf fl kb st (by simpa using hfl)]
  · by_cases hfl : fl.failPut
    · rw [commit_eq_failPut codec cf fl kb t st hfl]
    · rw [commit_eq_put codec cf fl kb t st (by simpa using hfl)]

theorem modify_cfs_eq {T : Type} (codec : Codec T) (cf : String) (fl : Faults)
    (kb : Bytes) (modifier : Option T → Option T) (st : Store) :
    (Collection.modify cf codec fl kb modifier st).store.cfs = st.cfs := by
  by_cases hreg : cf ∈ st.cfs
  · by_cases hfl : fl.failGet
    · rw [modify_eq_failGet codec cf fl kb modifier st hreg hfl]
    · have hfl' : fl.failGet = false := by simpa using hfl
      rcases h : lookupKV st.data (cf, kb) with _ | b
      · rw [modify_eq_absent codec cf fl kb modifier st hreg hfl' h]
        exact commit_cfs_eq codec cf fl kb (modifier none) st
      · rcases hd : codec.deser b with _ | t
        · rw [modify_eq_corrupt codec cf fl kb modifier st b hreg hfl' h hd]
        · rw [modify_eq_found codec cf fl kb modifier st b t hreg hfl' h hd]
          exact commit_cfs_eq codec cf fl kb (modifier (some t)) st
  · rw [modify_eq_unregistered codec cf fl kb modifier st hreg]

/-- Inserting a record `R` under `kb` via `modify` succeeds and leaves
`codec.ser R` stored under `kb`; a subsequent `get` returns exactly those
bytes, and deserializing them gives back `R`. -/
theorem modify_insert_then_get {T : Type} (codec : Codec T) (cf : String)
    (kb : Bytes) (R : T) (st : Store) (hreg : cf ∈ st.cfs)
    (hwf : KeyWf codec cf kb st) :
    (Collection.modify cf codec noFaults kb (fun _ => some R) st).outcome
      = some none ∧
    Collection.get cf noFaults kb
        (Collection.modify cf codec noFaults kb (fun _ => some R) st).store
      = .ok (some (codec.ser R)) ∧
    Value.deser codec (codec.ser R) = some R := by
  rcases h : lookupKV st.data (cf, kb) with _ | b
  · rw [modify_eq_absent codec cf noFaults kb (fun _ => some R) st hreg rfl h]
    simp only [commit_eq_put codec cf noFaults kb R st rfl]
    refine ⟨trivial, ?_, codec.deser_ser R⟩
    simp [Collection.get, hreg, noFaults]
  · obtain ⟨t, rfl⟩ := hwf b h
    rw [modify_eq_found codec cf noFaults kb (fun _ => some R) st
          (codec.ser t) t hreg rfl h (codec.deser_ser t)]
    simp only [commit_eq_put codec cf noFaults kb R st rfl]
    refine ⟨trivial, ?_, codec.deser_ser R⟩
    simp [Collection.get, hreg, noFaults]

/-- A registered single-partition store with no entries, used to evaluate
the model on concrete inputs. -/
def store1 : Store := ⟨["c"], []⟩

theorem keyWf_store1 (kb : Bytes) : KeyWf natCodec "c" kb store1 := by
  intro b hb
  simp [store1, lookupKV] at hb

/-- C1: storing a record `R` under key `K` with `modify` (a modifier that
sets the slot to `Some R`) and then calling `get K` and fully deserializing
the returned view via `deser` yields a value equal to `R`. -/
theorem C1_insert_get_roundTrip {T : Type} (codec : Codec T) (cf : String)
    (kb : Bytes) (R : T) (st : Store) (hreg : cf ∈ st.cfs)
    (hwf : KeyWf codec cf kb st) :
    ∃ bytes,
      Collection.get cf noFaults kb
          (Collection.modify cf codec noFaults kb (fun _ => some R) st).store
        = .ok (some bytes) ∧
      Value.deser codec bytes = some R := by
  obtain ⟨-, hget, hdes⟩ := modify_insert_then_get codec cf kb R st hreg hwf
  exact ⟨codec.ser R, hget, hdes⟩

theorem C1_insert_get_roundTrip_witness :
    ("c" ∈ store1.cfs) ∧
    ∃ bytes,
      Collection.get "c" noFaults [0]
          (Collection.modify "c" natCodec noFaults [0] (fun _ => some 2) store1).store
        = .ok (some bytes) ∧
      Value.deser natCodec bytes = some 2 :=
  ⟨by decide,
   C1_insert_get_roundTrip natCodec "c" [0] 2 store1 (by decide) (keyWf_store1 [0])⟩

/-- C3: against a collection whose partition is absent from the engine,
`get` and `modify` return exactly `CollectionNotRegistered` (in particular
never a store error), for every key, modifier and engine fault behaviour. -/
theorem C3_unregistered_error {T : Type} (codec : Codec T) (cf : String)
    (fl : Faults) (kb : Bytes) (modifier : Option T → Option T) (st : Store)
    (h : cf ∉ st.cfs) :
    Collection.get cf fl kb st = .error .collectionNotRegistered ∧
    (Collection.modify cf codec fl kb modifier st).outcome
      = some (some .collectionNotRegistered) := by
  refine ⟨?_, ?_⟩
  · simp [Collection.get, h]
  · rw [modify_eq_unregistered codec cf fl kb modifier st h]

theorem C3_unregistered_error_witness :
    Collection.get "x" ⟨true, true, true⟩ [0] store1
      = .error .collectionNotRegistered ∧
    (Collection.modify "x" natCodec ⟨true, true, true⟩ [0] (fun s => s)
        store1).outcome = some (some .collectionNotRegistered) :=
  C3_unregistered_error natCodec "x" ⟨true, true, true⟩ [0] (fun s => s) store1
    (by decide)

/-- C5: on a key currently holding a (layer-written) record, `modify` with a
modifier that empties the slot succeeds and deletes the key, and a
subsequent `get` returns `None`. -/
theorem C5_delete_then_get_none {T : Type} (codec : Codec T) (cf : String)
    (kb : Bytes) (t : T) (st : Store) (hreg : cf ∈ st.cfs)
    (hb : lookupKV st.data (cf, kb) = some (codec.ser t)) :
    (Collection.modify cf codec noFaults kb (fun _ => none) st).outcome
      = some none ∧
    Collection.get cf noFaults kb
        (Collection.modify cf codec noFaults kb (fun _ => none) st).store
      = .ok none := by
  rw [modify_eq_found codec cf noFaults kb (fun _ => none) st (codec.ser t) t
        hreg rfl hb (codec.deser_ser t)]
  simp only [commit_eq_delete codec cf noFaults kb st rfl]
  refine ⟨trivial, ?_⟩
  simp [Collection.get, hreg, noFaults, lookupKV_eraseKV_self]

theorem C5_delete_then_get_none_witness :
    lookupKV (Store.mk ["c"] [(("c", [0]), natCodec.ser 2)]).data ("c", [0])
      = some (natCodec.ser 2) ∧
    Collection.get "c" noFaults [0]
        (Collection.modify "c" natCodec noFaults [0] (fun _ => none)
            (Store.mk ["c"] [(("c", [0]), natCodec.ser 2)])).store
      = .ok none :=
  ⟨by decide,
   (C5_delete_then_get_none natCodec "c" [0] 2
      (Store.mk ["c"] [(("c", [0]), natCodec.ser 2)]) (by decide) (by decide)).2⟩

/-- C6: a modifier that leaves the slot unchanged is a harmless rewrite: the
call succeeds, the observable stored bytes under the key are unchanged, and
the commit is an engine put (the full trace is
acquire, read, modifier, put, release). -/
theorem C6_identity_rewrite {T : Type} (codec : Codec T) (cf : String)
    (kb : Bytes) (t : T) (st : Store) (hreg : cf ∈ st.cfs)
    (hb : lookupKV st.data (cf, kb) = some (codec.ser t)) :
    (Collection.modify cf codec noFaults kb (fun s => s) st).outcome
      = some none ∧
    (Collection.modify cf codec noFaults kb (fun s => s) st).trace
      = [.acquire, .engineGet, .userFn, .enginePut, .release] ∧
    lookupKV (Collection.modify cf codec noFaults kb (fun s => s) st).store.data
        (cf, kb)
      = lookupKV st.data (cf, kb) := by
  rw [modify_eq_found codec cf noFaults kb (fun s => s) st (codec.ser t) t
        hreg rfl hb (codec.deser_ser t)]
  simp only [commit_eq_put codec cf noFaults kb t st rfl]
  refine ⟨trivial, rfl, ?_⟩
  simp [hb]

theorem C6_identity_rewrite_witness :
    (Collection.modify "c" natCodec noFaults [0] (fun s => s)
        (Store.mk ["c"] [(("c", [0]), natCodec.ser 2)])).trace
      = [.acquire, .engineGet, .userFn, .enginePut, .release] ∧
    lookupKV (Collection.modify "c" natCodec noFaults [0] (fun s => s)
        (Store.mk ["c"] [(("c", [0]), natCodec.ser 2)])).store.data ("c", [0])
      = lookupKV (Store.mk ["c"] [(("c", [0]), natCodec.ser 2)]).data ("c", [0]) :=
  ⟨(C6_identity_rewrite natCodec "c" [0] 2
      (Store.mk ["c"] [(("c", [0]), natCodec.ser 2)]) (by decide) (by decide)).2.1,
   (C6_identity_rewrite natCodec "c" [0] 2
      (Store.mk ["c"] [(("c", [0]), natCodec.ser 2)]) (by decide) (by decide)).2.2⟩

/-- C8: for a key never written in a registered partition (its entry is
absent from the engine), `get` returns `Ok None`. -/
theorem C8_get_absent (cf : String) (kb : Bytes) (st : Store)
    (hreg : cf ∈ st.cfs) (habs : lookupKV st.data (cf, kb) = none) :
    Collection.get cf noFaults kb st = .ok none := by
  simp [Collection.get, hreg, noFaults, habs]

theorem C8_get_absent_witness :
    Collection.get "c" noFaults [7] store1 = .ok none :=
  C8_get_absent "c" [7] store1 (by decide) (by decide)

/-- C7: `CaseInsensitiveString` lower-cases on construction, so two strings
that agree after lower-casing serialize to identical key bytes; storing a
record under one of them and reading under the other returns that record. -/
theorem C7_case_normalized_key {T : Type} (codec : Codec T) (cf : String)
    (s t : List Char) (h : s.map Char.toLower = t.map Char.toLower) (R : T)
    (st : Store) (hreg : cf ∈ st.cfs)
    (hwf : KeyWf codec cf (CaseInsensitiveString.ofStr s).serialize st) :
    (CaseInsensitiveString.ofStr s).serialize
        = (CaseInsensitiveString.ofStr t).serialize ∧
    ∃ bytes,
      Collection.get cf noFaults (CaseInsensitiveString.ofStr t).serialize
          (Collection.modify cf codec noFaults
              (CaseInsensitiveString.ofStr s).serialize (fun _ => some R)
              st).store
        = .ok (some bytes) ∧
      Value.deser codec bytes = some R := by
  have hser : (CaseInsensitiveString.ofStr s).serialize
      = (CaseInsensitiveString.ofStr t).serialize := by
    simp [CaseInsensitiveString.ofStr, CaseInsensitiveString.serialize, h]
  refine ⟨hser, ?_⟩
  rw [← hser]
  obtain ⟨-, hget, hdes⟩ :=
    modify_insert_then_get codec cf (CaseInsensitiveString.ofStr s).serialize
      R st hreg hwf
  exact ⟨codec.ser R, hget, hdes⟩

theorem C7_case_normalized_key_witness :
    (CaseInsensitiveString.ofStr ['F', 'o', 'o']).serialize
        = (CaseInsensitiveString.ofStr ['f', 'o', 'o']).serialize ∧
    ∃ bytes,
      Collection.get "c" noFaults
          (CaseInsensitiveString.ofStr ['f', 'o', 'o']).serialize
          (Collection.modify "c" natCodec noFaults
              (CaseInsensitiveString.ofStr ['F', 'o', 'o']).serialize
              (fun _ => some 5) store1).store
        = .ok (some bytes) ∧
      Value.deser natCodec bytes = some 5 :=
  C7_case_normalized_key natCodec "c" ['F', 'o', 'o'] ['f', 'o', 'o']
    (by decide) 5 store1 (by decide)
    (keyWf_store1 (CaseInsensitiveString.ofStr ['F', 'o', 'o']).serialize)

theorem storeWf_putKV {T : Type} (codec : Codec T) (cf : String) (kb : Bytes)
    (t : T) (st : Store) (hwf : StoreWf codec cf st) :
    StoreWf codec cf { st with data := putKV st.data (cf, kb) (codec.ser t) } := by
  intro kb' b' hb'
  by_cases hk : kb' = kb
  · subst hk
    rw [lookupKV_putKV_self] at hb'
    exact ⟨t, (Option.some_inj.mp hb').symm⟩
  · rw [lookupKV_putKV_ne st.data (cf, kb) (cf, kb') (codec.ser t)
        (by simp [hk])] at hb'
    exact hwf kb' b' hb'

theorem storeWf_eraseKV {T : Type} (codec : Codec T) (cf : String) (kb : Bytes)
    (st : Store) (hwf : StoreWf codec cf st) :
    StoreWf codec cf { st with data := eraseKV st.data (cf, kb) } := by
  intro kb' b' hb'
  by_cases hk : kb' = kb
  · subst hk
    rw [lookupKV_eraseKV_self] at hb'
    cases hb'
  · rw [lookupKV_eraseKV_ne st.data (cf, kb) (cf, kb') (by simp [hk])] at hb'
    exact hwf kb' b' hb'

theorem commit_no_panic_preserves_wf {T : Type} (codec : Codec T) (cf : String)
    (fl : Faults) (kb : Bytes) (slot : Option T) (st : Store)
    (hwf : StoreWf codec cf st) :
    (Collection.commit cf codec fl kb slot st).outcome ≠ none ∧
    StoreWf codec cf (Collection.commit cf codec fl kb slot st).store := by
  rcases slot with _ | t
  · by_cases hfl : fl.failDelete
    · rw [commit_eq_failDelete codec cf fl kb st hfl]
      exact ⟨by simp, hwf⟩
    · rw [commit_eq_delete codec cf fl kb st (by simpa using hfl)]
      exact ⟨by simp, storeWf_eraseKV codec cf kb st hwf⟩
  · by_cases hfl : fl.failPut
    · rw [commit_eq_failPut codec cf fl kb t st hfl]
      exact ⟨by simp, hwf⟩
    · rw [commit_eq_put codec cf fl kb t st (by simpa using hfl)]
      exact ⟨by simp, storeWf_putKV codec cf kb t st hwf⟩

/-- C9: if every byte value stored in the partition was produced by this
layer's own serialization, then deserialization never fails: `get` followed
by `Value.deser` never reaches the panic branch, and `modify` never reaches
its panic branch either (for any modifier and fault behaviour) and keeps the
partition in that well-formed state. -/
theorem C9_deser_never_panics {T : Type} (codec : Codec T) (cf : String)
    (fl : Faults) (kb : Bytes) (modifier : Option T → Option T) (st : Store)
    (hwf : StoreWf codec cf st) :
    (∀ bytes, Collection.get cf fl kb st = .ok (some bytes) →
      (Value.deser codec bytes).isSome) ∧
    (Collection.modify cf codec fl kb modifier st).outcome ≠ none ∧
    StoreWf codec cf (Collection.modify cf codec fl kb modifier st).store := by
  have hget : ∀ bytes, Collection.get cf fl kb st = .ok (some bytes) →
      (Value.deser codec bytes).isSome := by
    intro bytes hbytes
    unfold Collection.get at hbytes
    by_cases hreg : cf ∈ st.cfs
    · rw [if_pos hreg] at hbytes
      by_cases hfl : fl.failGet
      · rw [if_pos hfl] at hbytes
        cases hbytes
      · rw [if_neg hfl] at hbytes
        have hl : lookupKV st.data (cf, kb) = some bytes := by
          simpa using hbytes
        obtain ⟨t, rfl⟩ := hwf kb bytes hl
        simp [Value.deser, codec.deser_ser]
    · rw [if_neg hreg] at hbytes
      cases hbytes
  refine ⟨hget, ?_⟩
  by_cases hreg : cf ∈ st.cfs
  · by_cases hfl : fl.failGet
    · rw [modify_eq_failGet codec cf fl kb modifier st hreg hfl]
      exact ⟨by simp, hwf⟩
    · have hfl' : fl.failGet = false := by simpa using hfl
      rcases h : lookupKV st.data (cf, kb) with _ | b
      · rw [modify_eq_absent codec cf fl kb modifier st hreg hfl' h]
        exact commit_no_panic_preserves_wf codec cf fl kb (modifier none) st hwf
      · obtain ⟨t, rfl⟩ := hwf kb b h
        rw [modify_eq_found codec cf fl kb modifier st (codec.ser t) t hreg
              hfl' h (codec.deser_ser t)]
        exact commit_no_panic_preserves_wf codec cf fl kb (modifier (some t))
          st hwf
  · rw [modify_eq_unregistered codec cf fl kb modifier st hreg]
    exact ⟨by simp, hwf⟩

theorem C9_deser_never_panics_witness :
    (Collection.modify "c" natCodec noFaults [0]
        (fun s => s.map (fun n => n + 1))
        (Store.mk ["c"] [(("c", [0]), natCodec.ser 2)])).outcome ≠ none :=
  (C9_deser_never_panics natCodec "c" noFaults [0]
      (fun s => s.map (fun n => n + 1))
      (Store.mk ["c"] [(("c", [0]), natCodec.ser 2)])
      (by
        intro kb b hb
        simp only [store1, lookupKV] at hb
        by_cases hk : (("c", [0]) : String × Bytes) = ("c", kb)
        · rw [if_pos hk] at hb
          exact ⟨2, (Option.some_inj.mp hb).symm⟩
        · rw [if_neg hk] at hb
          cases hb)).2.1

theorem commit_frame {T : Type} (codec : Codec T) (cf : String) (fl : Faults)
    (kb : Bytes) (slot : Option T) (st : Store) (q : String × Bytes)
    (hq : q ≠ (cf, kb)) :
    lookupKV (Collection.commit cf codec fl kb slot st).store.data q
      = lookupKV st.data q := by
  rcases slot with _ | t
  · by_cases hfl : fl.failDelete
    · rw [commit_eq_failDelete codec cf fl kb st hfl]
    · rw [commit_eq_delete codec cf fl kb st (by simpa using hfl)]
      exact lookupKV_eraseKV_ne st.data (cf, kb) q hq
  · by_cases hfl : fl.failPut
    · rw [commit_eq_failPut codec cf fl kb t st hfl]
    · rw [commit_eq_put codec cf fl kb t st (by simpa using hfl)]
      exact lookupKV_putKV_ne st.data (cf, kb) q (codec.ser t) hq

theorem commit_no_outcome_notRegistered {T : Type} (codec : Codec T)
    (cf : String) (fl : Faults) (kb : Bytes) (slot : Option T) (st : Store) :
    (Collection.commit cf codec fl kb slot st).outcome
      ≠ some (some .collectionNotRegistered) := by
  rcases slot with _ | t
  · by_cases hfl : fl.failDelete
    · rw [commit_eq_failDelete codec cf fl kb st hfl]
      simp
    · rw [commit_eq_delete codec cf fl kb st (by simpa using hfl)]
      simp
  · by_cases hfl : fl.failPut
    · rw [commit_eq_failPut codec cf fl kb t st hfl]
      simp
    · rw [commit_eq_put codec cf fl kb t st (by simpa using hfl)]
      simp

/-- C10: `modify` touches at most the single entry at (its partition, the
serialized key): every other stored entry reads the same afterwards and the
set of partitions is unchanged; and when it fails with
`CollectionNotRegistered` it performs no engine or lock operation at all and
leaves the store identical. -/
theorem C10_modify_frame {T : Type} (codec : Codec T) (cf : String)
    (fl : Faults) (kb : Bytes) (modifier : Option T → Option T) (st : Store) :
    (∀ q : String × Bytes, q ≠ (cf, kb) →
      lookupKV (Collection.modify cf codec fl kb modifier st).store.data q
        = lookupKV st.data q) ∧
    (Collection.modify cf codec fl kb modifier st).store.cfs = st.cfs ∧
    ((Collection.modify cf codec fl kb modifier st).outcome
        = some (some .collectionNotRegistered) →
      (Collection.modify cf codec fl kb modifier st).trace = [] ∧
      (Collection.modify cf codec fl kb modifier st).store = st) := by
  refine ⟨?_, modify_cfs_eq codec cf fl kb modifier st, ?_⟩
  · intro q hq
    by_cases hreg : cf ∈ st.cfs
    · by_cases hfl : fl.failGet
      · rw [modify_eq_failGet codec cf fl kb modifier st hreg hfl]
      · have hfl' : fl.failGet = false := by simpa using hfl
        rcases h : lookupKV st.data (cf, kb) with _ | b
        · rw [modify_eq_absent codec cf fl kb modifier st hreg hfl' h]
          exact commit_frame codec cf fl kb (modifier none) st q hq
        · rcases hd : codec.deser b with _ | t
          · rw [modify_eq_corrupt codec cf fl kb modifier st b hreg hfl' h hd]
          · rw [modify_eq_found codec cf fl kb modifier st b t hreg hfl' h hd]
            exact commit_frame codec cf fl kb (modifier (some t)) st q hq
    · rw [modify_eq_unregistered codec cf fl kb modifier st hreg]
  · intro hout
    by_cases hreg : cf ∈ st.cfs
    · exfalso
      by_cases hfl : fl.failGet
      · rw [modify_eq_failGet codec cf fl kb modifier st hreg hfl] at hout
        simp at hout
      · have hfl' : fl.failGet = false := by simpa using hfl
        rcases h : lookupKV st.data (cf, kb) with _ | b
        · rw [modify_eq_absent codec cf fl kb modifier st hreg hfl' h] at hout
          rcases commit_no_outcome_notRegistered codec cf fl kb (modifier none)
            st with hc
          exact hc hout
        · rcases hd : codec.deser b with _ | t
          · rw [modify_eq_corrupt codec cf fl kb modifier st b hreg hfl' h hd]
              at hout
            simp at hout
          · rw [modify_eq_found codec cf fl kb modifier st b t hreg hfl' h hd]
              at hout
            exact commit_no_outcome_notRegistered codec cf fl kb
              (modifier (some t)) st hout
    · rw [modify_eq_unregistered codec cf fl kb modifier st hreg]
      exact ⟨rfl, rfl⟩

theorem C10_modify_frame_witness :
    lookupKV (Collection.modify "c" natCodec noFaults [0] (fun _ => some 3)
        (Store.mk ["c"] [(("c", [1]), natCodec.ser 9)])).store.data ("c", [1])
      = lookupKV (Store.mk ["c"] [(("c", [1]), natCodec.ser 9)]).data ("c", [1]) :=
  (C10_modify_frame natCodec "c" noFaults [0] (fun _ => some 3)
      (Store.mk ["c"] [(("c", [1]), natCodec.ser 9)])).1 ("c", [1]) (by decide)

/-- The lock automaton over a `modify` trace: `none` signals a second
acquisition while held or a release while free; otherwise it returns the
final lock state. -/
def lockRun : Bool → List Ev → Option Bool
  | held, [] => some held
  | false, .acquire :: r => lockRun true r
  | true, .acquire :: _ => none
  | true, .release :: r => lockRun false r
  | false, .release :: _ => none
  | held, _ :: r => lockRun held r

/-- Whether every engine / user event of the trace happens while the lock is
held. -/
def underLock : Bool → List Ev → Bool
  | _, [] => true
  | _, .acquire :: r => underLock true r
  | _, .release :: r => underLock false r
  | held, _ :: r => held && underLock held r

theorem commit_trace_cases {T : Type} (codec : Codec T) (cf : String)
    (fl : Faults) (kb : Bytes) (slot : Option T) (st : Store) :
    (Collection.commit cf codec fl kb slot st).trace = [.enginePut] ∨
    (Collection.commit cf codec fl kb slot st).trace = [.engineDelete] := by
  rcases slot with _ | t
  · by_cases hfl : fl.failDelete
    · rw [commit_eq_failDelete codec cf fl kb st hfl]
      exact Or.inr rfl
    · rw [commit_eq_delete codec cf fl kb st (by simpa using hfl)]
      exact Or.inr rfl
  · by_cases hfl : fl.failPut
    · rw [commit_eq_failPut codec cf fl kb t st hfl]
      exact Or.inl rfl
    · rw [commit_eq_put codec cf fl kb t st (by simpa using hfl)]
      exact Or.inl rfl

/-- In the registered case the `modify` trace takes one of three shapes:
early exit after the locked read (engine read failure or the deserialization
panic), or a full run committing with a put, or with a delete. -/
theorem modify_trace_cases {T : Type} (codec : Codec T) (cf : String)
    (fl : Faults) (kb : Bytes) (modifier : Option T → Option T) (st : Store)
    (hreg : cf ∈ st.cfs) :
    (Collection.modify cf codec fl kb modifier st).trace
        = [.acquire, .engineGet, .release] ∨
    (Collection.modify cf codec fl kb modifier st).trace
        = [.acquire, .engineGet, .userFn, .enginePut, .release] ∨
    (Collection.modify cf codec fl kb modifier st).trace
        = [.acquire, .engineGet, .userFn, .engineDelete, .release] := by
  by_cases hfl : fl.failGet
  · rw [modify_eq_failGet codec cf fl kb modifier st hreg hfl]
    exact Or.inl rfl
  · have hfl' : fl.failGet = false := by simpa using hfl
    rcases h : lookupKV st.data (cf, kb) with _ | b
    · rw [modify_eq_absent codec cf fl kb modifier st hreg hfl' h]
      rcases commit_trace_cases codec cf fl kb (modifier none) st with hc | hc <;>
        rw [hc]
      · exact Or.inr (Or.inl rfl)
      · exact Or.inr (Or.inr rfl)
    · rcases hd : codec.deser b with _ | t
      · rw [modify_eq_corrupt codec cf fl kb modifier st b hreg hfl' h hd]
        exact Or.inl rfl
      · rw [modify_eq_found codec cf fl kb modifier st b t hreg hfl' h hd]
        rcases commit_trace_cases codec cf fl kb (modifier (some t)) st
          with hc | hc <;> rw [hc]
        · exact Or.inr (Or.inl rfl)
        · exact Or.inr (Or.inr rfl)

/-- C4 (amended): once `modify` has resolved its partition it acquires the
lock exactly once, as its first action, releases it exactly once, as its
last action (on every exit path, engine failures and the panic unwind
included), and performs every engine access and the user mutation with the
lock held; on every call, registered or not, the lock is free again after
`modify` returns and is never re-entered or over-released. -/
theorem C4_lock_discipline {T : Type} (codec : Codec T) (cf : String)
    (fl : Faults) (kb : Bytes) (modifier : Option T → Option T) (st : Store) :
    lockRun false (Collection.modify cf codec fl kb modifier st).trace
      = some false ∧
    underLock false (Collection.modify cf codec fl kb modifier st).trace
      = true ∧
    (cf ∈ st.cfs →
      (Collection.modify cf codec fl kb modifier st).trace.head?
          = some .acquire ∧
      (Collection.modify cf codec fl kb modifier st).trace.getLast?
          = some .release ∧
      (Collection.modify cf codec fl kb modifier st).trace.count .acquire
          = 1 ∧
      (Collection.modify cf codec fl kb modifier st).trace.count .release
          = 1) := by
  by_cases hreg : cf ∈ st.cfs
  · rcases modify_trace_cases codec cf fl kb modifier st hreg
      with htr | htr | htr <;> rw [htr] <;>
      exact ⟨by decide, by decide, fun _ => by decide⟩
  · rw [modify_eq_unregistered codec cf fl kb modifier st hreg]
    exact ⟨rfl, rfl, fun hmem => absurd hmem hreg⟩

/-- C4 (amended): once `modify` has resolved its partition it acquires the
lock exactly once, as its first action, releases it exactly once, as its
last action (on every exit path, engine failures and the panic unwind
included), and performs every engine access and the user mutation with the
lock held; on every call, registered or not, the lock is free again after
`modify` returns and is never re-entered or over-released. -/
theorem C4_lock_discipline_witness :
    lockRun false (Collection.modify "c" natCodec noFaults [0]
        (fun _ => some 1) store1).trace = some false ∧
    (Collection.modify "c" natCodec noFaults [0]
        (fun _ => some 1) store1).trace.head? = some .acquire :=
  ⟨(C4_lock_discipline natCodec "c" noFaults [0] (fun _ => some 1) store1).1,
   ((C4_lock_discipline natCodec "c" noFaults [0] (fun _ => some 1) store1).2.2
      (by decide)).1⟩

/-- C4, as stated, fails on the code: a `modify` call whose partition is not
registered returns before the lock is ever acquired (src/lib.rs lines
118-121 precede the `mutex.lock()` on line 124), so not every `modify` call
acquires the exclusivity lock. -/
theorem C4_counterexample :
    (Collection.modify "c" natCodec noFaults [] (fun s => s)
        (Store.mk [] [])).outcome = some (some .collectionNotRegistered) ∧
    Ev.acquire ∉ (Collection.modify "c" natCodec noFaults [] (fun s => s)
        (Store.mk [] [])).trace := by
  decide

/-- Control state of one in-flight `modify`-increment call: not yet holding
the mutex, holding it before the locked read, holding it after reading the
stored counter `v`, or returned. -/
inductive TSt where
  | idle
  | hasLock
  | gotVal (v : Nat)
  | done
  deriving DecidableEq, Repr

/-- Shared state of `n` concurrent `modify` calls on one key of one handle:
the stored counter record under that key, the handle's mutex (`some i` =
held by call `i`), and each call's control state. -/
structure CState where
  cell : Nat
  lock : Option Nat
  ths : List TSt
  deriving DecidableEq, Repr

def nthT : List TSt → Nat → Option TSt
  | [], _ => none
  | t :: _, 0 => some t
  | _ :: r, n + 1 => nthT r n

def setT : List TSt → Nat → TSt → List TSt
  | [], _, _ => []
  | _ :: r, 0, t => t :: r
  | a :: r, n + 1, t => a :: setT r n t

def countDone : List TSt → Nat
  | [] => 0
  | TSt.done :: r => countDone r + 1
  | _ :: r => countDone r

/-- One atomic step of call `i`, following the locked section of `modify`
(src/lib.rs lines 124-140) with a modifier that increments the counter
field: acquire the mutex (an attempt while it is held blocks, i.e. changes
nothing), read and deserialize the stored record, then write the
incremented record back and release the mutex.  Finished calls do
nothing. -/
def step (s : CState) (i : Nat) : CState :=
  match nthT s.ths i with
  | none => s
  | some TSt.idle =>
    match s.lock with
    | none => { s with lock := some i, ths := setT s.ths i TSt.hasLock }
    | some _ => s
  | some TSt.hasLock => { s with ths := setT s.ths i (TSt.gotVal s.cell) }
  | some (TSt.gotVal v) =>
    { cell := v + 1, lock := none, ths := setT s.ths i TSt.done }
  | some TSt.done => s

/-- Run an arbitrary interleaving of the calls' steps. -/
def run (s : CState) (sched : List Nat) : CState := sched.foldl step s

/-- Initial state: counter `c0`, mutex free, `n` calls about to start. -/
def initC (c0 n : Nat) : CState := ⟨c0, none, List.replicate n TSt.idle⟩

theorem step_eq_none (s : CState) (i : Nat) (h : nthT s.ths i = none) :
    step s i = s := by
  simp [step, h]

theorem step_eq_idle_free (s : CState) (i : Nat)
    (h : nthT s.ths i = some TSt.idle) (hl : s.lock = none) :
    step s i = { s with lock := some i, ths := setT s.ths i TSt.hasLock } := by
  simp [step, h, hl]

theorem step_eq_idle_held (s : CState) (i k : Nat)
    (h : nthT s.ths i = some TSt.idle) (hl : s.lock = some k) :
    step s i = s := by
  simp [step, h, hl]

theorem step_eq_hasLock (s : CState) (i : Nat)
    (h : nthT s.ths i = some TSt.hasLock) :
    step s i = { s with ths := setT s.ths i (TSt.gotVal s.cell) } := by
  simp [step, h]

theorem step_eq_gotVal (s : CState) (i v : Nat)
    (h : nthT s.ths i = some (TSt.gotVal v)) :
    step s i = ⟨v + 1, none, setT s.ths i TSt.done⟩ := by
  simp [step, h]

theorem step_eq_doneT (s : CState) (i : Nat)
    (h : nthT s.ths i = some TSt.done) : step s i = s := by
  simp [step, h]

theorem nthT_setT_self (l : List TSt) (i : Nat) (t t' : TSt)
    (h : nthT l i = some t') : nthT (setT l i t) i = some t := by
  induction l generalizing i with
  | nil => cases h
  | cons a r ih =>
    cases i with
    | zero => rfl
    | succ n => exact ih n h

theorem nthT_setT_ne (l : List TSt) (i j : Nat) (t : TSt) (h : j ≠ i) :
    nthT (setT l i t) j = nthT l j := by
  induction l generalizing i j with
  | nil => rfl
  | cons a r ih =>
    cases i with
    | zero =>
      cases j with
      | zero => exact absurd rfl h
      | succ m => rfl
    | succ n =>
      cases j with
      | zero => rfl
      | succ m => exact ih n m (fun hc => h (by rw [hc]))

theorem countDone_cons (x : TSt) (r : List TSt) :
    countDone (x :: r) = countDone r + (if x = TSt.done then 1 else 0) := by
  cases x <;> simp [countDone]

theorem countDone_setT_notDone (l : List TSt) (i : Nat) (t t' : TSt)
    (h : nthT l i = some t') (h1 : t' ≠ TSt.done) (h2 : t ≠ TSt.done) :
    countDone (setT l i t) = countDone l := by
  induction l generalizing i with
  | nil => cases h
  | cons a r ih =>
    cases i with
    | zero =>
      have ha : a = t' := by
        injection h
      subst ha
      simp [setT, countDone_cons, h1, h2]
    | succ n =>
      simp [setT, countDone_cons, ih n h]

theorem countDone_setT_toDone (l : List TSt) (i : Nat) (t' : TSt)
    (h : nthT l i = some t') (h1 : t' ≠ TSt.done) :
    countDone (setT l i TSt.done) = countDone l + 1 := by
  induction l generalizing i with
  | nil => cases h
  | cons a r ih =>
    cases i with
    | zero =>
      have ha : a = t' := by
        injection h
      subst ha
      simp [setT, countDone_cons, h1]
    | succ n =>
      simp only [setT, countDone_cons, ih n h]
      omega

theorem nthT_mem (l : List TSt) (i : Nat) (t : TSt)
    (h : nthT l i = some t) : t ∈ l := by
  induction l generalizing i with
  | nil => cases h
  | cons a r ih =>
    cases i with
    | zero =>
      have ha : a = t := by
        injection h
      exact ha ▸ List.mem_cons_self a r
    | succ n => exact List.mem_cons_of_mem a (ih n h)

theorem lengthT_setT (l : List TSt) (i : Nat) (t : TSt) :
    (setT l i t).length = l.length := by
  induction l generalizing i with
  | nil => rfl
  | cons a r ih =>
    cases i with
    | zero => rfl
    | succ n => simp [setT, ih n]

theorem countDone_eq_length (l : List TSt) (h : ∀ t ∈ l, t = TSt.done) :
    countDone l = l.length := by
  induction l with
  | nil => rfl
  | cons a r ih =>
    have ha := h a (List.mem_cons_self a r)
    simp [countDone_cons, ha,
      ih (fun t ht => h t (List.mem_cons_of_mem a ht))]

theorem countDone_replicate_idle (n : Nat) :
    countDone (List.replicate n TSt.idle) = 0 := by
  induction n with
  | zero => rfl
  | succ m ih => simp [List.replicate_succ, countDone_cons, ih]

/-- The mutual-exclusion invariant: the counter has absorbed exactly the
finished calls; while the mutex is free every call is untouched or
finished; while call `i` holds the mutex it is mid-critical-section (and if
it has read, its private copy equals the current counter) and every other
call is untouched or finished. -/
def Inv (c0 : Nat) (s : CState) : Prop :=
  s.cell = c0 + countDone s.ths ∧
  (s.lock = none →
    ∀ i t, nthT s.ths i = some t → t = TSt.idle ∨ t = TSt.done) ∧
  (∀ i, s.lock = some i →
    (nthT s.ths i = some TSt.hasLock ∨
      nthT s.ths i = some (TSt.gotVal s.cell)) ∧
    ∀ j t, j ≠ i → nthT s.ths j = some t → t = TSt.idle ∨ t = TSt.done)

theorem Inv_init (c0 n : Nat) : Inv c0 (initC c0 n) := by
  refine ⟨?_, ?_, ?_⟩
  · simp [initC, countDone_replicate_idle]
  · intro _ i t h
    exact Or.inl (List.eq_of_mem_replicate (nthT_mem _ i t h))
  · intro i hl
    simp [initC] at hl

theorem Inv_step (c0 : Nat) (s : CState) (i : Nat) (h : Inv c0 s) :
    Inv c0 (step s i) := by
  obtain ⟨hcell, hfree, hheld⟩ := h
  rcases hn : nthT s.ths i with _ | t
  · rw [step_eq_none s i hn]
    exact ⟨hcell, hfree, hheld⟩
  · rcases t with _ | _ | v | _
    · rcases hl : s.lock with _ | k
      · rw [step_eq_idle_free s i hn hl]
        refine ⟨?_, ?_, ?_⟩
        · show s.cell = c0 + countDone (setT s.ths i TSt.hasLock)
          rw [countDone_setT_notDone s.ths i TSt.hasLock TSt.idle hn
            (by simp) (by simp)]
          exact hcell
        · intro hnone
          exact absurd hnone (by simp)
        · intro j hj
          have hj2 : some i = some j := hj
          have hij : j = i := by
            injection hj2 with h1
            exact h1.symm
          subst hij
          refine ⟨Or.inl ?_, ?_⟩
          · show nthT (setT s.ths j TSt.hasLock) j = some TSt.hasLock
            exact nthT_setT_self s.ths j TSt.hasLock TSt.idle hn
          · intro j2 t2 hj2ne hnth
            have hnth2 : nthT (setT s.ths j TSt.hasLock) j2 = some t2 := hnth
            rw [nthT_setT_ne s.ths j j2 TSt.hasLock hj2ne] at hnth2
            exact hfree hl j2 t2 hnth2
      · rw [step_eq_idle_held s i k hn hl]
        exact ⟨hcell, hfree, hheld⟩
    · rcases hl : s.lock with _ | k
      · have hcontra := hfree hl i TSt.hasLock hn
        simp at hcontra
      · obtain ⟨hk, hothers⟩ := hheld k hl
        by_cases hik : i = k
        · subst hik
          rw [step_eq_hasLock s i hn]
          refine ⟨?_, ?_, ?_⟩
          · show s.cell = c0 + countDone (setT s.ths i (TSt.gotVal s.cell))
            rw [countDone_setT_notDone s.ths i (TSt.gotVal s.cell)
              TSt.hasLock hn (by simp) (by simp)]
            exact hcell
          · intro hnone
            have hnone2 : s.lock = none := hnone
            rw [hl] at hnone2
            cases hnone2
          · intro j hj
            have hj2 : s.lock = some j := hj
            rw [hl] at hj2
            have hij : j = i := by
              injection hj2 with h1
              exact h1.symm
            subst hij
            refine ⟨Or.inr ?_, ?_⟩
            · show nthT (setT s.ths j (TSt.gotVal s.cell)) j
                = some (TSt.gotVal s.cell)
              exact nthT_setT_self s.ths j (TSt.gotVal s.cell) TSt.hasLock hn
            · intro j2 t2 hj2ne hnth
              have hnth2 : nthT (setT s.ths j (TSt.gotVal s.cell)) j2
                  = some t2 := hnth
              rw [nthT_setT_ne s.ths j j2 (TSt.gotVal s.cell) hj2ne] at hnth2
              exact hothers j2 t2 hj2ne hnth2
        · have hcontra := hothers i TSt.hasLock hik hn
          simp at hcontra
    · rcases hl : s.lock with _ | k
      · have hcontra := hfree hl i (TSt.gotVal v) hn
        simp at hcontra
      · obtain ⟨hk, hothers⟩ := hheld k hl
        by_cases hik : i = k
        · subst hik
          have hv : v = s.cell := by
            rcases hk with hk | hk
            · rw [hn] at hk
              simp at hk
            · rw [hn] at hk
              have h1 : TSt.gotVal v = TSt.gotVal s.cell := by
                injection hk with h2
              injection h1 with h2
          rw [step_eq_gotVal s i v hn]
          refine ⟨?_, ?_, ?_⟩
          · show v + 1 = c0 + countDone (setT s.ths i TSt.done)
            rw [countDone_setT_toDone s.ths i (TSt.gotVal v) hn (by simp),
              hv, hcell]
            omega
          · intro _ j t hj
            by_cases hji : j = i
            · subst hji
              have hself : nthT (setT s.ths j TSt.done) j = some TSt.done :=
                nthT_setT_self s.ths j TSt.done (TSt.gotVal v) hn
              have hj2 : nthT (setT s.ths j TSt.done) j = some t := hj
              rw [hself] at hj2
              have ht : TSt.done = t := by
                injection hj2 with h1
              exact Or.inr ht.symm
            · have hj2 : nthT (setT s.ths i TSt.done) j = some t := hj
              rw [nthT_setT_ne s.ths i j TSt.done hji] at hj2
              exact hothers j t hji hj2
          · intro j hj
            have hj2 : (none : Option Nat) = some j := hj
            cases hj2
        · have hcontra := hothers i (TSt.gotVal v) hik hn
          simp at hcontra
    · rw [step_eq_doneT s i hn]
      exact ⟨hcell, hfree, hheld⟩

theorem Inv_run (c0 : Nat) (sched : List Nat) (s : CState) (h : Inv c0 s) :
    Inv c0 (run s sched) := by
  induction sched generalizing s with
  | nil => exact h
  | cons a r ih => exact ih (step s a) (Inv_step c0 s a h)

theorem length_step (s : CState) (i : Nat) :
    (step s i).ths.length = s.ths.length := by
  rcases hn : nthT s.ths i with _ | t
  · rw [step_eq_none s i hn]
  rcases t with _ | _ | v | _
  · rcases hl : s.lock with _ | k
    · rw [step_eq_idle_free s i hn hl]
      exact lengthT_setT s.ths i TSt.hasLock
    · rw [step_eq_idle_held s i k hn hl]
  · rw [step_eq_hasLock s i hn]
    exact lengthT_setT s.ths i (TSt.gotVal s.cell)
  · rw [step_eq_gotVal s i v hn]
    exact lengthT_setT s.ths i TSt.done
  · rw [step_eq_doneT s i hn]

theorem length_run (sched : List Nat) (s : CState) :
    (run s sched).ths.length = s.ths.length := by
  induction sched generalizing s with
  | nil => rfl
  | cons a r ih => exact (ih (step s a)).trans (length_step s a)

/-- C2: starting from counter `c0` with `n` concurrent `modify` calls that
each increment the counter once, any interleaving of their atomic steps
(acquire, locked read, locked write-and-release) after which all `n` calls
have finished leaves the stored counter equal to `c0 + n`: the handle mutex
fully serializes the read-modify-write sequences. -/
theorem C2_concurrent_increments (c0 n : Nat) (sched : List Nat)
    (hdone : ∀ t ∈ (run (initC c0 n) sched).ths, t = TSt.done) :
    (run (initC c0 n) sched).cell = c0 + n := by
  obtain ⟨hcell, -, -⟩ := Inv_run c0 sched (initC c0 n) (Inv_init c0 n)
  have hlen : (run (initC c0 n) sched).ths.length = n := by
    rw [length_run]
    simp [initC]
  rw [hcell, countDone_eq_length _ hdone, hlen]

theorem C2_concurrent_increments_witness :
    (∀ t ∈ (run (initC 0 2) [0, 1, 0, 0, 1, 1, 1]).ths, t = TSt.done) ∧
    (run (initC 0 2) [0, 1, 0, 0, 1, 1, 1]).cell = 0 + 2 :=
  ⟨by decide, C2_concurrent_increments 0 2 [0, 1, 0, 0, 1, 1, 1] (by decide)⟩

end Rkyvdb
